import Mathlib

/-!
Vault-Linker: verification of the cross-vault index synchronization and resolution engine.

Shallow embedding of `src/main.ts` (the `VaultLinkerPlugin` class) and the parts of the
Node `path`/`fs` libraries it uses.  Strings are modelled as `List Char` (`Str`); the
JavaScript string operations used by the plugin (`split`, `includes`, `trim`, `trimEnd`,
`endsWith`) are given their ECMAScript semantics restricted to ASCII whitespace and
case folding, which covers every character class the plugin manipulates.

Stateful parts of the class (`globalIndex`, the three caches, `isLoadingIndices`) are
modelled by explicit state passing on a `PluginState` record; JavaScript `Map`s keep
insertion order, so they are modelled as association lists with `mapGet`/`mapSet`
reproducing `Map.get`/`Map.set` (update in place, append when absent).
-/

abbrev Str := List Char

/-- ECMAScript whitespace (`\s`, `trim`) restricted to the ASCII range. -/
def jsWs (c : Char) : Bool :=
  c = ' ' || c = '\t' || c = '\n' || c = '\r' || c = '\x0b' || c = '\x0c'

/-- JavaScript `String.prototype.split` with a single-character separator:
`"a#b#c".split('#') = ["a","b","c"]`, `"".split('#') = [""]`. -/
def jsSplit (sep : Char) : Str → List Str
  | [] => [[]]
  | c :: cs =>
    if c = sep then [] :: jsSplit sep cs
    else
      match jsSplit sep cs with
      | [] => [[c]]
      | p :: ps => (c :: p) :: ps

/-- JavaScript `a || b` on strings: the empty string is falsy. -/
def jsOrElse (a b : Str) : Str := if a = [] then b else a

/-- JavaScript `String.prototype.trimEnd`. -/
def jsTrimEnd (s : Str) : Str := (s.reverse.dropWhile jsWs).reverse

/-- JavaScript `String.prototype.trim`. -/
def jsTrim (s : Str) : Str := (s.dropWhile jsWs).reverse.dropWhile jsWs |>.reverse

/-- JavaScript `String.prototype.endsWith`. -/
def jsEndsWith (s suffix : Str) : Bool :=
  decide (s.reverse.take suffix.length = suffix.reverse)

/-- Node `path.posix.basename`: strip trailing separators, keep the part after the
last remaining separator (`basename "/" = ""`, `basename "a/b/" = "b"`). -/
def posixBasename (s : Str) : Str :=
  ((s.reverse.dropWhile (· = '/')).takeWhile (· ≠ '/')).reverse

/-- Node `path.extname` for names that contain no `'/'` (the plugin only ever calls it
on such names, see `hrefBaseName`): the substring from the last `'.'` to the end,
except that a name with no dot, a name whose only dot is its first character
(a dotfile), and the name `".."` have no extension.  `extname "index." = "."`,
`extname ".index" = ""`, `extname "idx.coffee.md" = ".md"`. -/
def extnameNoSlash (s : Str) : Str :=
  let suffix := s.reverse.takeWhile (· ≠ '.')
  if suffix.length = s.length then []
  else
    let j := s.length - suffix.length - 1
    if j = 0 then []
    else if s = ['.', '.'] then []
    else s.drop j

/-- `normalizeFilename` (main.ts:711-719) without its memoization layer:
`const ext = path.extname(name); return ext ? name : name + '.md'`. -/
def normalizeFilenamePure (name : Str) : Str :=
  if extnameNoSlash name = [] then name ++ ".md".data else name

/-- The `lookupName`/`anchor` part of `parseLinkHref` (main.ts:728-734):
`split('#')`, `lookupName = parts[0] || href`, `anchor = parts[1] || ''`. -/
def splitHref (href : Str) : Str × Str :=
  if '#' ∈ href then
    let parts := jsSplit '#' href
    (jsOrElse (parts.getD 0 []) href, parts.getD 1 [])
  else (href, [])

/-- The `baseName` step of `parseLinkHref` (main.ts:736-738): apply `path.basename`
only when the name contains a path separator. -/
def hrefBaseName (href : Str) : Str :=
  let lookupName := (splitHref href).1
  if '/' ∈ lookupName ∨ '\\' ∈ lookupName then posixBasename lookupName else lookupName

/-- `parseLinkHref` (main.ts:727-741), pure value (the memoization of
`normalizeFilename` is modelled separately on `PluginState`). -/
def parseLinkHref (href : Str) : Str × Str :=
  (normalizeFilenamePure (hrefBaseName href), (splitHref href).2)

/-! ## `extractBlockContent` (main.ts:766-826) -/

/-- ASCII-case-insensitive string equality (the `'i'` regex flag). -/
def ciEq : Str → Str → Bool
  | [], [] => true
  | a :: as', b :: bs => (a.toLower = b.toLower) && ciEq as' bs
  | _, _ => false

/-- Length of the leading run of `'#'` characters.  Only this maximal run can be the
`(#+)` capture of the heading regexes: backtracking to a shorter run leaves a `'#'`
to be matched by `\s+`, which fails. -/
def leadHashes (l : Str) : Nat := (l.takeWhile (· = '#')).length

/-- `rest` matches the escaped reference followed by `\s*$`: the literal (matched
case-insensitively by the `'i'` flag) consumes exactly `ref.length` characters and
only whitespace may follow. -/
def refLiteralThen (ref rest : Str) : Bool :=
  ciEq (rest.take ref.length) ref && (rest.drop ref.length).all jsWs

/-- `rest` matches `\s+` then the escaped reference then `\s*$` (the part of
`^(#+)\s+ref\s*$` after the hashes); the `∃`-split over the `\s+` width is realised
by trying every nonempty whitespace prefix. -/
def wsThenRef (ref : Str) : Str → Bool
  | [] => false
  | c :: cs => jsWs c && (refLiteralThen ref cs || wsThenRef ref cs)

/-- The heading regex `^(#+)\s+${escaped ref}\s*$` with the `'i'` flag
(main.ts:791): `some level` when the line matches with `level` hashes captured. -/
def headingMatch (line ref : Str) : Option Nat :=
  let k := leadHashes line
  if k = 0 then none
  else if wsThenRef ref (line.drop k) then some k else none

/-- The section-end test `/^(#+)\s+/` with `match[1].length ≤ headingLevel`
(main.ts:817-818): a heading line of depth at most `level`. -/
def isBoundaryLine (level : Nat) (l : Str) : Bool :=
  let k := leadHashes l
  decide (0 < k) && decide (k ≤ level) &&
    (match (l.drop k).head? with
     | some c => jsWs c
     | none => false)

/-- The two scanning loops of the heading branch (main.ts:795-822): find the first
line matching the heading regex, then collect lines up to (excluding) the next
heading of equal-or-shallower depth.  The first `for` loop is the recursion, the
second (`endLineIndex`) is the `takeWhile`. -/
def headingSearch (ref : Str) : List Str → Option (List Str)
  | [] => none
  | l :: ls =>
    match headingMatch l ref with
    | some level => some (l :: ls.takeWhile (fun x => !(isBoundaryLine level x)))
    | none => headingSearch ref ls

/-- `lines.slice(start, end).join('\n')`. -/
def joinLines : List Str → Str
  | [] => []
  | [l] => l
  | l :: ls => l ++ '\n' :: joinLines ls

/-- `extractBlockContent` (main.ts:766-826).

Block branch (main.ts:772-787): the first line (the `!line` guard skips empty lines,
which cannot end with the nonempty marker anyway) whose `trimEnd()` ends with the
marker is returned.  The `line.replace(new RegExp('\\s*\\' + escaped + '\\s*$'), '')`
on main.ts:780 builds the pattern `\s*\\^id\s*$`: after `\s*` it requires a literal
backslash (`\\`) and then the start-of-input assertion `^` at a position ≥ 1, so the
regex matches no string at all and the replace is the identity; the line is returned
with only `trim()` applied and the block marker still present.

Heading branch (main.ts:789-826): first matching heading to next boundary, joined
and trimmed.  In both branches a failed search returns `content` unchanged (the
`console.warn` diagnostics carry no state). -/
def extractBlockContent (content reference : Str) : Str :=
  if reference = [] then content
  else
    let lines := jsSplit '\n' content
    if reference.head? = some '^' then
      match lines.find? (fun l => !l.isEmpty && jsEndsWith (jsTrimEnd l) reference) with
      | some l => jsTrim l
      | none => content
    else
      match headingSearch reference lines with
      | some sec => jsTrim (joinLines sec)
      | none => content

/-! ## Data model and plugin state (main.ts:306-326) -/

/-- `interface FileInfo` (main.ts:306-309); `mtime` is a JSON number, modelled as `Nat`. -/
structure FileInfo where
  path : Str
  mtime : Nat
deriving DecidableEq

/-- An element of a `globalIndex` bucket: `{ vaultPath, fileInfo }` (main.ts:321). -/
structure RemoteEntry where
  vaultPath : Str
  fileInfo : FileInfo
deriving DecidableEq

/-- `interface VaultIndex` (main.ts:311-313): the published index artifact, a JSON
object whose keys (in insertion order) map file names to `FileInfo`. -/
structure VaultIndex where
  files : List (Str × FileInfo)
deriving DecidableEq

/-- JavaScript `Map.get` on an insertion-ordered association list. -/
def mapGet {κ α : Type} [DecidableEq κ] : List (κ × α) → κ → Option α
  | [], _ => none
  | p :: ps, k => if p.1 = k then some p.2 else mapGet ps k

/-- JavaScript `Map.set`: update in place when the key exists (keeping its
position), append otherwise. -/
def mapSet {κ α : Type} [DecidableEq κ] : List (κ × α) → κ → α → List (κ × α)
  | [], k, v => [(k, v)]
  | p :: ps, k, v => if p.1 = k then (k, v) :: ps else p :: mapSet ps k v

/-- JavaScript `Set.add`. -/
def setAdd (s : List Str) (x : Str) : List Str := if x ∈ s then s else s ++ [x]

/-- The mutable fields of `VaultLinkerPlugin` used by the resolution engine
(main.ts:320-326) together with `settings.neighborVaults`. -/
structure PluginState where
  neighborVaults : List Str
  globalIndex : List (Str × List RemoteEntry)
  negativeCache : List Str
  normalizationCache : List (Str × Str)
  lookupCache : List (Str × Option (List RemoteEntry))
  isLoadingIndices : Bool
deriving DecidableEq

/-- `normalizeFilename` (main.ts:711-719) with its memoization cache. -/
def normalizeFilenameSt (st : PluginState) (name : Str) : Str × PluginState :=
  match mapGet st.normalizationCache name with
  | some v => (v, st)
  | none =>
    let r := normalizeFilenamePure name
    (r, { st with normalizationCache := mapSet st.normalizationCache name r })

/-- `parseLinkHref` (main.ts:727-741) threading the normalization cache. -/
def parseLinkHrefSt (st : PluginState) (href : Str) : (Str × Str) × PluginState :=
  let (filename, st') := normalizeFilenameSt st (hrefBaseName href)
  ((filename, (splitHref href).2), st')

/-- `lookupInGlobalIndex` (main.ts:749-758): consult `lookupCache`
(`has` then `get(href) || null`, so a cached `null` is returned as `null`), else
parse the href, read `globalIndex` and cache the result. -/
def lookupInGlobalIndex (st : PluginState) (href : Str) :
    Option (List RemoteEntry) × PluginState :=
  match mapGet st.lookupCache href with
  | some v => (v, st)
  | none =>
    let (parsed, st₁) := parseLinkHrefSt st href
    let result := mapGet st₁.globalIndex parsed.1
    (result, { st₁ with lookupCache := mapSet st₁.lookupCache href result })

/-- `isRemoteMatch` (main.ts:513-534).  The `console.log` miss diagnostic
(main.ts:523-528) has no effect on state or result and is omitted. -/
def isRemoteMatch (st : PluginState) (href : Str) : Bool × PluginState :=
  if st.isLoadingIndices then (false, st)
  else if href ∈ st.negativeCache then (false, st)
  else
    let (found, st₁) := lookupInGlobalIndex st href
    let hasMatch : Bool :=
      match found with
      | some l => !l.isEmpty
      | none => false
    if hasMatch then (true, st₁)
    else (false, { st₁ with negativeCache := setAdd st₁.negativeCache href })

/-- The merge step of `loadSingleRemoteIndex` (main.ts:899-907): ensure a bucket
exists (`if (!has) set(filename, [])`) then push the entry; the two steps run with
no intervening suspension point. -/
def giPush : List (Str × List RemoteEntry) → Str → RemoteEntry →
    List (Str × List RemoteEntry)
  | [], filename, e => [(filename, [e])]
  | p :: ps, filename, e =>
    if p.1 = filename then (p.1, p.2 ++ [e]) :: ps else p :: giPush ps filename e

/-- The `for (const [filename, info] of Object.entries(index.files))` loop of
`loadSingleRemoteIndex` (main.ts:899-907). -/
def mergeIndex (gi : List (Str × List RemoteEntry)) (vaultPath : Str)
    (files : List (Str × FileInfo)) : List (Str × List RemoteEntry) :=
  files.foldl (fun g p => giPush g p.1 ⟨vaultPath, p.2⟩) gi

/-- `loadSingleRemoteIndex` (main.ts:884-914).  `pub` abstracts the filesystem:
`pub vaultPath` is the vault's published index when `index.json` exists at the
standard or legacy plugin directory and parses as JSON; `none` covers a missing
file and a read/parse failure (the `catch` logs and leaves `globalIndex` alone). -/
def loadSingleRemoteIndex (pub : Str → Option VaultIndex)
    (gi : List (Str × List RemoteEntry)) (vaultPath : Str) : List (Str × List RemoteEntry) :=
  match pub vaultPath with
  | some idx => mergeIndex gi vaultPath idx.files
  | none => gi

/-- The synchronous prefix of `loadRemoteIndices` (main.ts:860-864): set the loading
flag, clear `globalIndex` and all three caches. -/
def reloadBegin (st : PluginState) : PluginState :=
  { st with
    isLoadingIndices := true
    globalIndex := []
    negativeCache := []
    normalizationCache := []
    lookupCache := [] }

/-- The epilogue of `loadRemoteIndices` (main.ts:872-876): clear the loading flag,
then clear `negativeCache` and `lookupCache` a second time. -/
def reloadEnd (st : PluginState) : PluginState :=
  { st with
    isLoadingIndices := false
    negativeCache := []
    lookupCache := [] }

/-- `loadRemoteIndices` (main.ts:859-878).  The per-vault loads are issued with
`Promise.all` over `settings.neighborVaults`; each vault's merge loop runs
synchronously once its `readFile` resolves, so the merges interleave atomically in
the completion order of the reads.  `order` is that completion order, a permutation
of `st.neighborVaults` chosen by the I/O scheduler (spec §5 notes the source
"exhibits completion-order (racy) behavior by default"). -/
def loadRemoteIndices (st : PluginState) (pub : Str → Option VaultIndex)
    (order : List Str) : PluginState :=
  let st₀ := reloadBegin st
  reloadEnd { st₀ with globalIndex := order.foldl (loadSingleRemoteIndex pub) st₀.globalIndex }

/-- A sequence of `isRemoteMatch` queries after a reload (each DOM-driven
`processLink`/`processEmbed` call consults `isRemoteMatch`). -/
def runQueries (st : PluginState) (qs : List Str) : PluginState :=
  qs.foldl (fun s q => (isRemoteMatch s q).2) st

/-! ## `scanForVaults` / `isVault` (main.ts:939-974) -/

/-- Node `path.join` for the two-segment joins the plugin performs (both arguments
are plain non-empty segments, so no normalization applies). -/
def pathJoin (a b : Str) : Str := a ++ '/' :: b

/-- One entry of `fs.readdirSync(parentPath, withFileTypes)`. -/
structure Dirent where
  name : Str
  isDir : Bool
deriving DecidableEq

/-- The filesystem as seen by `scanForVaults`: whether `parentPath` exists, the
outcome of reading it (`Except` error = `readdirSync` throwing), and the outcome of
the `.obsidian` probe of `isVault` for each config path (`Except` error = `existsSync`
or `statSync` throwing, e.g. permission denied). -/
structure ScanFS where
  parentExists : Bool
  readdirResult : Except Str (List Dirent)
  vaultCheck : Str → Except Unit Bool

/-- `isVault` (main.ts:967-974): probe `dirPath/.obsidian`; any thrown error is
caught and yields `false`. -/
def isVault (fs : ScanFS) (dirPath : Str) : Bool :=
  match fs.vaultCheck (pathJoin dirPath ".obsidian".data) with
  | .ok b => b
  | .error _ => false

/-- `scanForVaults` (main.ts:939-965): returns the collected vault paths together
with the emitted error diagnostics (`console.error` + `Notice`).  The `try/catch`
around the `isVault` call (main.ts:949-956) cannot fire because `isVault` catches
internally; a vault whose probe throws simply yields `false` and is skipped.  A
`readdirSync` failure is caught by the outer `catch`, which emits the diagnostics
and returns `[]`. -/
def scanForVaults (fs : ScanFS) (parentPath : Str) : List Str × List Str :=
  if !fs.parentExists then ([], [])
  else
    match fs.readdirResult with
    | .ok subdirs =>
      let vaultPaths := subdirs.foldl
        (fun acc d =>
          if d.isDir then
            let fullPath := pathJoin parentPath d.name
            if isVault fs fullPath then acc ++ [fullPath] else acc
          else acc) []
      (vaultPaths, [])
    | .error e => ([], [e])

/-! ## `ensureBidirectionalLink` (main.ts:984-1062) -/

/-- The remote vault's `data.json` as read by `ensureBidirectionalLink`: the two
list fields it may touch (`none` = field absent from the JSON object; a present
empty array is truthy in JavaScript, so only absence triggers the `!data.x`
initialization) and `rest`, an arbitrary type standing for every other field of the
configuration verbatim. -/
structure RemoteData (α : Type) where
  neighborVaults : Option (List Str)
  discoveredVaults : Option (List Str)
  rest : α
deriving DecidableEq

/-- The gossip loop of `ensureBidirectionalLink` (main.ts:1042-1048): each local
neighbor other than the remote vault itself is pushed onto the (already mutated)
discovered list when known to neither list; the accumulator carries the discovered
list and the `changed` flag. -/
def gossipStep (nv : List Str) (remoteVaultPath : Str) (acc : List Str × Bool)
    (neighbor : Str) : List Str × Bool :=
  if neighbor = remoteVaultPath then acc
  else if neighbor ∉ nv ∧ neighbor ∉ acc.1 then (acc.1 ++ [neighbor], true)
  else acc

/-- `ensureBidirectionalLink` (main.ts:984-1062), as a function from the located
remote configuration to the write-back action: `none` = no file written.
`remoteData = none` covers every "cannot locate" path: no plugin dir found by the
manifest scan or the fixed fallbacks, no `data.json`, or `JSON.parse` throwing
(the `catch` on main.ts:1054-1056 logs and writes nothing).  `currentVaultPath`
empty models the falsy `basePath` guard (main.ts:986-987). -/
def ensureBidirectionalLink {α : Type} (currentVaultPath : Str)
    (localNeighbors : List Str) (remoteVaultPath : Str)
    (remoteData : Option (RemoteData α)) : Option (RemoteData α) :=
  if currentVaultPath = [] then none
  else
    match remoteData with
    | none => none
    | some data =>
      let nv := data.neighborVaults.getD []
      let dv := data.discoveredVaults.getD []
      let step1 : List Str × Bool :=
        if currentVaultPath ∉ nv ∧ currentVaultPath ∉ dv then (dv ++ [currentVaultPath], true)
        else (dv, false)
      let step2 := localNeighbors.foldl (gossipStep nv remoteVaultPath) step1
      if step2.2 then some ⟨some nv, some step2.1, data.rest⟩ else none

/-! ## Auxiliary predicates used by the theorems -/

/-- `v` publishes `n`: its index artifact loads and parses, and contains key `n`. -/
def publishesB (pub : Str → Option VaultIndex) (v n : Str) : Bool :=
  match pub v with
  | some idx => decide (n ∈ idx.files.map Prod.fst)
  | none => false

/-- The first vault in `vs` that publishes `n`. -/
def firstPublisher (pub : Str → Option VaultIndex) (n : Str) : List Str → Option Str
  | [] => none
  | v :: vs => if publishesB pub v n then some v else firstPublisher pub n vs

/-- Every bucket of the global index is non-empty. -/
def giWF (gi : List (Str × List RemoteEntry)) : Prop :=
  ∀ n l, mapGet gi n = some l → l ≠ []

/-- Every positive entry of the lookup cache is non-empty. -/
def lcWF (lc : List (Str × Option (List RemoteEntry))) : Prop :=
  ∀ h l, mapGet lc h = some (some l) → l ≠ []

/-! Spec-side formulations for the refinement theorem about `parseLinkHref`
(claim C5, amended): computed with `takeWhile`/`dropWhile` from the description
"segment before the first `#` (the whole href when that segment is empty), reduced
to its base name, default extension appended; anchor = segment between the first
and second `#`". -/

/-- The name `parseLinkHref` actually looks up, per the amended description. -/
def specLookupName (href : Str) : Str :=
  let pre := href.takeWhile (· ≠ '#')
  if pre = [] ∧ '#' ∈ href then href else pre

/-- The anchor per the amended description: the segment strictly between the first
and the second `'#'` (up to the end when there is no second `'#'`). -/
def specAnchor (href : Str) : Str :=
  if '#' ∈ href then ((href.dropWhile (· ≠ '#')).tail).takeWhile (· ≠ '#') else []

/-- The normalized filename per the amended description. -/
def specFilename (href : Str) : Str :=
  let l := specLookupName href
  let b := if '/' ∈ l ∨ '\\' ∈ l then posixBasename l else l
  normalizeFilenamePure b

/-- A state captured mid-reload: the loading flag is set and a stale negative cache
entry for `"x"` is present. -/
def c1LoadingState : PluginState :=
  ⟨["B".data], [], ["x".data], [], [], true⟩

/-- One neighbor vault `"B"` publishing `Note.md`. -/
def c1Pub : Str → Option VaultIndex :=
  fun v => if v = "B".data then some ⟨[("Note.md".data, ⟨"Note.md".data, 1⟩)]⟩ else none

/-- The resting state before the reload. -/
def c1Start : PluginState :=
  ⟨["B".data], [], [], [], [], false⟩

/-- A state whose normalization cache holds an entry for `"a"`. -/
def c7State : PluginState :=
  ⟨[], [], [], [("a".data, "a.md".data)], [], false⟩

/-- Two neighbors in list order `[A, B]`. -/
def c2State : PluginState :=
  ⟨["A".data, "B".data], [], [], [], [], false⟩

/-- Both neighbors publish `Note.md` (with distinct mtimes to tell them apart). -/
def c2Pub : Str → Option VaultIndex := fun v =>
  if v = "A".data then some ⟨[("Note.md".data, ⟨"Note.md".data, 1⟩)]⟩
  else if v = "B".data then some ⟨[("Note.md".data, ⟨"Note.md".data, 2⟩)]⟩
  else none

/-- A parent folder with three subdirectories: `v1` and `v2` carry the `.obsidian`
marker, `plain` does not. -/
def c8FS : ScanFS where
  parentExists := true
  readdirResult := .ok [⟨"v1".data, true⟩, ⟨"v2".data, true⟩, ⟨"plain".data, true⟩]
  vaultCheck := fun cp =>
    if cp = pathJoin (pathJoin "parent".data "v1".data) ".obsidian".data then .ok true
    else if cp = pathJoin (pathJoin "parent".data "v2".data) ".obsidian".data then .ok true
    else .ok false

/-! # Lemmas -/

theorem mapGet_mapSet {κ α : Type} [DecidableEq κ] (m : List (κ × α)) (k k' : κ) (v : α) :
    mapGet (mapSet m k v) k' = if k = k' then some v else mapGet m k' := by
  induction m with
  | nil => simp [mapSet, mapGet]
  | cons p ps ih =>
    by_cases hp : p.1 = k
    · rw [show mapSet (p :: ps) k v = (k, v) :: ps by rw [mapSet, if_pos hp]]
      by_cases hk : k = k'
      · simp [mapGet, hk]
      · have hp' : p.1 ≠ k' := by rw [hp]; exact hk
        simp [mapGet, hk, hp']
    · rw [show mapSet (p :: ps) k v = p :: mapSet ps k v by rw [mapSet, if_neg hp]]
      by_cases hpk : p.1 = k'
      · have hkk : k ≠ k' := fun h => hp (by rw [h, hpk])
        simp [mapGet, hpk, hkk]
      · simp [mapGet, hpk, ih]

theorem giPush_get (gi : List (Str × List RemoteEntry)) (f n : Str) (e : RemoteEntry) :
    mapGet (giPush gi f e) n =
      if f = n then some ((mapGet gi f).getD [] ++ [e]) else mapGet gi n := by
  induction gi with
  | nil => by_cases h : f = n <;> simp [giPush, mapGet, h]
  | cons p ps ih =>
    by_cases hp : p.1 = f
    · rw [show giPush (p :: ps) f e = (p.1, p.2 ++ [e]) :: ps by rw [giPush, if_pos hp]]
      by_cases hn : f = n
      · have hpn : p.1 = n := by rw [hp, hn]
        simp [mapGet, hpn, hn, hp]
      · have hpn : p.1 ≠ n := by rw [hp]; exact hn
        simp [mapGet, hpn, hn]
    · rw [show giPush (p :: ps) f e = p :: giPush ps f e by rw [giPush, if_neg hp]]
      by_cases hpn : p.1 = n
      · have hfn : f ≠ n := fun h => hp (by rw [hpn, h])
        simp [mapGet, hpn, hfn]
      · simp [mapGet, hpn, hp, ih]

theorem loadRemoteIndices_isLoading (st : PluginState) (pub : Str → Option VaultIndex)
    (order : List Str) : (loadRemoteIndices st pub order).isLoadingIndices = false := rfl

theorem loadRemoteIndices_negativeCache (st : PluginState) (pub : Str → Option VaultIndex)
    (order : List Str) : (loadRemoteIndices st pub order).negativeCache = [] := rfl

theorem loadRemoteIndices_lookupCache (st : PluginState) (pub : Str → Option VaultIndex)
    (order : List Str) : (loadRemoteIndices st pub order).lookupCache = [] := rfl

theorem loadRemoteIndices_normalizationCache (st : PluginState)
    (pub : Str → Option VaultIndex) (order : List Str) :
    (loadRemoteIndices st pub order).normalizationCache = [] := rfl

theorem loadRemoteIndices_globalIndex (st : PluginState) (pub : Str → Option VaultIndex)
    (order : List Str) :
    (loadRemoteIndices st pub order).globalIndex
      = order.foldl (loadSingleRemoteIndex pub) [] := rfl

theorem lookup_fst_of_empty_caches (st : PluginState) (href : Str)
    (hlc : st.lookupCache = []) (hnc : st.normalizationCache = []) :
    (lookupInGlobalIndex st href).1 = mapGet st.globalIndex (parseLinkHref href).1 := by
  simp [lookupInGlobalIndex, hlc, hnc, mapGet, parseLinkHrefSt, normalizeFilenameSt,
    parseLinkHref]

/-- C1: while a reload is in progress (`isLoadingIndices` set), `isRemoteMatch`
answers `false` ("not yet known") immediately, leaving the state — in particular any
negative cache populated before the reload started — unconsulted and untouched; and
after the reload completes, a query for an href that the rebuilt `globalIndex`
resolves to a non-empty match list returns `true`. -/
theorem c1_no_stale_negative
    (stLoading : PluginState) (h₁ : Str) (hload : stLoading.isLoadingIndices = true)
    (st : PluginState) (pub : Str → Option VaultIndex) (order : List Str) (h₂ : Str)
    (l : List RemoteEntry)
    (hres : mapGet (loadRemoteIndices st pub order).globalIndex (parseLinkHref h₂).1
      = some l)
    (hne : l ≠ []) :
    isRemoteMatch stLoading h₁ = (false, stLoading) ∧
    (isRemoteMatch (loadRemoteIndices st pub order) h₂).1 = true := by
  constructor
  · rw [isRemoteMatch, if_pos hload]
  · have hlk : (lookupInGlobalIndex (loadRemoteIndices st pub order) h₂).1 = some l := by
      rw [lookup_fst_of_empty_caches _ _ (loadRemoteIndices_lookupCache st pub order)
        (loadRemoteIndices_normalizationCache st pub order)]
      exact hres
    have heq : lookupInGlobalIndex (loadRemoteIndices st pub order) h₂
        = (some l, (lookupInGlobalIndex (loadRemoteIndices st pub order) h₂).2) := by
      rw [← hlk]
    have hemp : l.isEmpty = false := by
      cases l with
      | nil => exact absurd rfl hne
      | cons a as => rfl
    rw [isRemoteMatch, loadRemoteIndices_isLoading, loadRemoteIndices_negativeCache, heq]
    simp [hemp]

theorem c1_no_stale_negative_witness :
    isRemoteMatch c1LoadingState "x".data = (false, c1LoadingState) ∧
    (isRemoteMatch (loadRemoteIndices c1Start c1Pub ["B".data]) "Note".data).1 = true :=
  c1_no_stale_negative c1LoadingState "x".data (by decide)
    c1Start c1Pub ["B".data] "Note".data [⟨"B".data, ⟨"Note.md".data, 1⟩⟩]
    (by decide) (by decide)

/-- C4: evaluating `extractBlockContent` at the spec's own block-extraction example.
The unmatchable replace regex (see the doc comment of `extractBlockContent`) leaves
the block marker in place: the code returns `"line one ^abc123"` where its comment
("removing the block ID itself") and the spec demand `"line one"`.  The second
conjunct records the divergence; the third confirms the fallback half of the claim
(no line carries the marker: the full document is returned unchanged). -/
theorem c4_block_marker_not_stripped :
    extractBlockContent "line one ^abc123\nline two".data "^abc123".data
      = "line one ^abc123".data ∧
    extractBlockContent "line one ^abc123\nline two".data "^abc123".data
      ≠ "line one".data ∧
    extractBlockContent "line one\nline two".data "^zz9".data
      = "line one\nline two".data := by
  decide

/-- C3 counterexample: the claim promises the verbatim section from the heading up
to (excluding) the next heading of equal-or-shallower depth; for a section ending
in a blank line that is `"# A\nfoo\n"` (lines `# A`, `foo`, and the empty line),
but the code's final `.trim()` returns `"# A\nfoo"`. -/
theorem c3_counterexample :
    extractBlockContent "# A\nfoo\n\n# B".data "A".data = "# A\nfoo".data ∧
    extractBlockContent "# A\nfoo\n\n# B".data "A".data ≠ "# A\nfoo\n".data := by
  decide

/-- C5 counterexample: the claim says the anchor is the entire substring after the
first `'#'` (`"b#c"` for `"a#b#c"`), but `parts[1]` is only the segment between the
first and second `'#'` (`"b"`). -/
theorem c5_counterexample :
    (parseLinkHref "a#b#c".data).2 = "b".data ∧
    (parseLinkHref "a#b#c".data).2 ≠ "b#c".data := by
  decide

/-- C6 counterexample: parsing is not idempotent on the empty href: it parses to
`".md"`, and `path.extname ".md"` is empty (a dotfile has no extension), so parsing
`".md"` appends the default extension again, yielding `".md.md"`. -/
theorem c6_counterexample :
    (parseLinkHref "".data).1 = ".md".data ∧
    (parseLinkHref ((parseLinkHref "".data).1)).1 = ".md.md".data ∧
    (parseLinkHref ((parseLinkHref "".data).1)).1 ≠ (parseLinkHref "".data).1 := by
  decide

/-- C7 counterexample: `loadRemoteIndices` clears the normalization cache
(main.ts:863): the entry for `"a"` present before the reload is gone afterwards,
so the cache is not "never invalidated". -/
theorem c7_counterexample :
    mapGet c7State.normalizationCache "a".data = some "a.md".data ∧
    mapGet (loadRemoteIndices c7State (fun _ => none) []).normalizationCache "a".data
      = none := by
  decide

/-- C9 counterexample: when the remote `data.json` lacks a `neighborVaults` field
and a discovered entry is added, the written configuration gains `neighborVaults: []`
— a field other than the discovered list is not preserved verbatim. -/
theorem c9_counterexample :
    ensureBidirectionalLink "A".data [] "B".data
        (some (⟨none, some [], 0⟩ : RemoteData Nat))
      = some ⟨some [], some ["A".data], 0⟩ ∧
    (⟨some [], some ["A".data], 0⟩ : RemoteData Nat).neighborVaults
      ≠ (⟨none, some [], 0⟩ : RemoteData Nat).neighborVaults := by
  decide

/-- C2 counterexample: with neighbors `[A, B]` both publishing `Note.md`, the
completion order `[B, A]` (a permutation of the neighbor list, chosen by the I/O
scheduler) puts `B`'s entry first: `matches[0]` is not the entry of the first
neighbor in the user's list, so the list-order tie-break does not hold for every
reload. -/
theorem c2_counterexample :
    (["B".data, "A".data] : List Str).Perm c2State.neighborVaults ∧
    mapGet (loadRemoteIndices c2State c2Pub ["B".data, "A".data]).globalIndex
        "Note.md".data
      = some [⟨"B".data, ⟨"Note.md".data, 2⟩⟩, ⟨"A".data, ⟨"Note.md".data, 1⟩⟩] ∧
    firstPublisher c2Pub "Note.md".data c2State.neighborVaults = some "A".data ∧
    ("B".data : Str) ≠ "A".data := by
  refine ⟨?_, by decide, by decide, by decide⟩
  decide

theorem lookup_normCache_mono (st : PluginState) (h k w : Str)
    (hw : mapGet st.normalizationCache k = some w) :
    mapGet ((lookupInGlobalIndex st h).2).normalizationCache k = some w := by
  unfold lookupInGlobalIndex
  cases hc : mapGet st.lookupCache h with
  | some v => simpa using hw
  | none =>
    unfold parseLinkHrefSt normalizeFilenameSt
    cases hn : mapGet st.normalizationCache (hrefBaseName h) with
    | some v => simpa using hw
    | none =>
      have hk : hrefBaseName h ≠ k := by
        intro he
        rw [he, hw] at hn
        cases hn
      simp [mapGet_mapSet, hk, hw]

theorem irm_normCache_mono (st : PluginState) (h k w : Str)
    (hw : mapGet st.normalizationCache k = some w) :
    mapGet ((isRemoteMatch st h).2).normalizationCache k = some w := by
  unfold isRemoteMatch
  by_cases h1 : st.isLoadingIndices = true
  · simpa [h1] using hw
  · by_cases h2 : h ∈ st.negativeCache
    · simpa [h1, h2] using hw
    · have hp := lookup_normCache_mono st h k w hw
      rcases hld : lookupInGlobalIndex st h with ⟨found, st₁⟩
      rw [hld] at hp
      cases found with
      | none => simpa [h1, h2, hld] using hp
      | some l =>
        by_cases hl : l.isEmpty = true
        · simpa [h1, h2, hld, hl] using hp
        · simpa [h1, h2, hld, hl] using hp

/-- C7 (amended): the `normalizationCache` is cleared at the start of every reload
together with `lookupCache` and `negativeCache` (so a reload leaves it empty — it
is not "never invalidated"); outside reloads, lookups only add entries: every entry
present before an `isRemoteMatch` call is still present with the same value
afterwards. -/
theorem c7_normalization_cache (st : PluginState) (pub : Str → Option VaultIndex)
    (order : List Str) (st' : PluginState) (h k w : Str)
    (hw : mapGet st'.normalizationCache k = some w) :
    (loadRemoteIndices st pub order).normalizationCache = [] ∧
    mapGet ((isRemoteMatch st' h).2).normalizationCache k = some w :=
  ⟨rfl, irm_normCache_mono st' h k w hw⟩

theorem c7_normalization_cache_witness :
    mapGet c7State.normalizationCache "a".data = some "a.md".data ∧
    (loadRemoteIndices c7State (fun _ => none) []).normalizationCache = [] ∧
    mapGet ((isRemoteMatch c7State "q".data).2).normalizationCache "a".data
      = some "a.md".data :=
  ⟨by decide,
   (c7_normalization_cache c7State (fun _ => none) [] c7State "q".data "a".data
      "a.md".data (by decide)).1,
   (c7_normalization_cache c7State (fun _ => none) [] c7State "q".data "a".data
      "a.md".data (by decide)).2⟩

theorem jsSplit_ne_nil (c : Char) (s : Str) : jsSplit c s ≠ [] := by
  induction s with
  | nil => simp [jsSplit]
  | cons a as ih =>
    by_cases h : a = c
    · simp [jsSplit, h]
    · simp only [jsSplit, if_neg h]
      cases hj : jsSplit c as with
      | nil => simp
      | cons p ps => simp

theorem takeWhile_ne_of_not_mem (c : Char) (s : Str) (h : c ∉ s) :
    s.takeWhile (· ≠ c) = s := by
  induction s with
  | nil => rfl
  | cons a as ih =>
    have hac : a ≠ c := fun he => h (he ▸ List.mem_cons_self a as)
    have has : c ∉ as := fun hm => h (List.mem_cons_of_mem a hm)
    simp [List.takeWhile_cons, hac]
    exact fun x hx he => has (he ▸ hx)

theorem jsSplit_getD_zero (c : Char) (s : Str) :
    (jsSplit c s).getD 0 [] = s.takeWhile (· ≠ c) := by
  induction s with
  | nil => simp [jsSplit]
  | cons a as ih =>
    by_cases h : a = c
    · subst h
      simp [jsSplit, List.takeWhile_cons]
    · simp only [jsSplit, if_neg h]
      cases hj : jsSplit c as with
      | nil => exact absurd hj (jsSplit_ne_nil c as)
      | cons p ps =>
        rw [hj] at ih
        simp only [List.getD_cons_zero] at ih
        simp [List.takeWhile_cons, h, ih]

theorem jsSplit_getD_one (c : Char) (s : Str) (h : c ∈ s) :
    (jsSplit c s).getD 1 [] = ((s.dropWhile (· ≠ c)).tail).takeWhile (· ≠ c) := by
  induction s with
  | nil => cases h
  | cons a as ih =>
    by_cases hac : a = c
    · subst hac
      have h1 : jsSplit a (a :: as) = [] :: jsSplit a as := by
        simp [jsSplit]
      rw [h1, List.getD_cons_succ, jsSplit_getD_zero]
      have h2 : List.dropWhile (fun x => decide (x ≠ a)) (a :: as) = a :: as := by
        simp [List.dropWhile_cons]
      rw [h2]
      rfl
    · have hmem : c ∈ as := by
        rcases List.mem_cons.mp h with h' | h'
        · exact absurd h'.symm hac
        · exact h'
      simp only [jsSplit, if_neg hac]
      cases hj : jsSplit c as with
      | nil => exact absurd hj (jsSplit_ne_nil c as)
      | cons p ps =>
        rw [hj] at ih
        have := ih hmem
        simp only [List.getD_cons_succ] at this ⊢
        simpa [List.dropWhile_cons, hac] using this

theorem splitHref_eq (href : Str) :
    splitHref href = (specLookupName href, specAnchor href) := by
  unfold splitHref specLookupName specAnchor
  by_cases h : '#' ∈ href
  · simp only [if_pos h]
    rw [jsSplit_getD_zero, jsSplit_getD_one _ _ h]
    unfold jsOrElse
    by_cases hp : href.takeWhile (· ≠ '#') = []
    · simp [hp, h]
    · simp [hp, h]
  · have hself : href.takeWhile (· ≠ '#') = href := takeWhile_ne_of_not_mem _ _ h
    simp only [if_neg h, hself]
    by_cases hh : href = []
    · simp [hh, h]
    · simp [hh, h]

/-- C5 (amended): `parseLinkHref` splits on `'#'`.  The filename comes from the
segment before the first `'#'`, except that when that segment is empty (href
beginning with `'#'`) the entire href is used; the name is reduced to its posix
base name when it contains `'/'` or `'\'`, and `.md` is appended when `path.extname`
finds none.  The anchor is the segment strictly between the first and second `'#'`
(not the entire remainder), and empty when the href has no `'#'`. -/
theorem c5_parse_link_href (href : Str) :
    parseLinkHref href = (specFilename href, specAnchor href) := by
  unfold parseLinkHref specFilename hrefBaseName
  rw [splitHref_eq]

theorem slash_not_mem_posixBasename (s : Str) : '/' ∉ posixBasename s := by
  unfold posixBasename
  intro hm
  rw [List.mem_reverse] at hm
  have := List.mem_takeWhile_imp hm
  simp at this

theorem posixBasename_of_no_slash (s : Str) (h : '/' ∉ s) : posixBasename s = s := by
  unfold posixBasename
  have h1 : '/' ∉ s.reverse := by simpa using h
  have h2 : s.reverse.dropWhile (· = '/') = s.reverse := by
    cases hs : s.reverse with
    | nil => rfl
    | cons a as =>
      have ha : a ≠ '/' := by
        intro he
        rw [hs] at h1
        exact h1 (he ▸ List.mem_cons_self a as)
      simp [List.dropWhile_cons, ha]
  rw [h2, takeWhile_ne_of_not_mem _ _ h1, List.reverse_reverse]

theorem hrefBaseName_no_slash (href : Str) : '/' ∉ hrefBaseName href := by
  unfold hrefBaseName
  by_cases h : '/' ∈ (splitHref href).1 ∨ '\\' ∈ (splitHref href).1
  · simp only [if_pos h]
    exact slash_not_mem_posixBasename _
  · simp only [if_neg h]
    push_neg at h
    exact h.1

theorem extname_append_md (b : Str) (hb : b ≠ []) :
    extnameNoSlash (b ++ ".md".data) = ".md".data := by
  simp only [extnameNoSlash]
  have hrev : (b ++ ".md".data).reverse = 'd' :: 'm' :: '.' :: b.reverse := by
    simp [show (".md".data : Str) = ['.', 'm', 'd'] from rfl]
  rw [hrev]
  have htw : List.takeWhile (fun x => decide (x ≠ '.')) ('d' :: 'm' :: '.' :: b.reverse)
      = ['d', 'm'] := by
    simp [List.takeWhile_cons]
  rw [htw]
  have hlen : (b ++ ".md".data).length = b.length + 3 := by
    simp [show (".md".data : Str) = ['.', 'm', 'd'] from rfl]
  rw [hlen]
  have hsl : (['d', 'm'] : Str).length = 2 := rfl
  rw [hsl]
  have c1 : ¬(2 = b.length + 3) := by omega
  rw [if_neg c1]
  have c2 : b.length + 3 - 2 - 1 = b.length := by omega
  rw [c2]
  have c3 : ¬(b.length = 0) := fun h0 => hb (List.length_eq_zero.mp h0)
  rw [if_neg c3]
  have c4 : ¬(b ++ ".md".data = ['.', '.']) := by
    intro he
    have := congrArg List.length he
    rw [hlen] at this
    simp at this
  rw [if_neg c4]
  have : (b ++ ".md".data).drop b.length = ".md".data := List.drop_left b ".md".data
  exact this

theorem parse_fst_of_clean (f : Str) (hfne : f ≠ [])
    (hext : extnameNoSlash f ≠ []) (hslash : '/' ∉ f)
    (htail : ∀ x ∈ f.drop 1, x ≠ '#') :
    (parseLinkHref f).1 = f := by
  have hsplit1 : (splitHref f).1 = f := by
    rw [splitHref_eq]
    by_cases hm : '#' ∈ f
    · obtain ⟨c, rest, hcons⟩ : ∃ c rest, f = c :: rest := by
        cases hfc : f with
        | nil => exact absurd hfc hfne
        | cons c rest => exact ⟨c, rest, rfl⟩
      have hc : c = '#' := by
        rcases List.mem_cons.mp (hcons ▸ hm) with h' | h'
        · exact h'.symm
        · exact absurd rfl (htail '#' (by rw [hcons]; simpa using h'))
      have hpre : f.takeWhile (fun x => decide (x ≠ '#')) = [] := by
        rw [hcons, hc]
        simp [List.takeWhile_cons]
      show (if f.takeWhile (fun x => decide (x ≠ '#')) = [] ∧ '#' ∈ f then f
            else f.takeWhile (fun x => decide (x ≠ '#'))) = f
      rw [hpre]
      rw [if_pos ⟨rfl, hm⟩]
    · have hpre : f.takeWhile (fun x => decide (x ≠ '#')) = f :=
        takeWhile_ne_of_not_mem _ _ hm
      show (if f.takeWhile (fun x => decide (x ≠ '#')) = [] ∧ '#' ∈ f then f
            else f.takeWhile (fun x => decide (x ≠ '#'))) = f
      rw [if_neg (fun hand => hm hand.2)]
      exact hpre
  have hbase : hrefBaseName f = f := by
    show (if '/' ∈ (splitHref f).1 ∨ '\\' ∈ (splitHref f).1
      then posixBasename (splitHref f).1 else (splitHref f).1) = f
    rw [hsplit1]
    by_cases hm : '/' ∈ f ∨ '\\' ∈ f
    · rw [if_pos hm]
      exact posixBasename_of_no_slash f hslash
    · rw [if_neg hm]
  show normalizeFilenamePure (hrefBaseName f) = f
  rw [hbase]
  unfold normalizeFilenamePure
  rw [if_neg hext]

/-- C6 (amended): parsing is idempotent for every href whose parsed (pre-
normalization) base name is non-empty and whose normalized filename contains `'#'`
at most as its first character: feeding such a filename back into `parseLinkHref`
returns it unchanged.  (Without these conditions it fails: `parse "" = ".md"` but
`parse ".md" = ".md.md"`, and `parse "#a/b#c" = "b#c.md"` but
`parse "b#c.md" = "b.md"`.) -/
theorem c6_parse_idempotent (href : Str)
    (hb : hrefBaseName href ≠ [])
    (hh : ((parseLinkHref href).1.drop 1).all (· ≠ '#') = true) :
    (parseLinkHref ((parseLinkHref href).1)).1 = (parseLinkHref href).1 := by
  have hfe : (parseLinkHref href).1 = normalizeFilenamePure (hrefBaseName href) := rfl
  apply parse_fst_of_clean
  · rw [hfe]
    unfold normalizeFilenamePure
    by_cases he : extnameNoSlash (hrefBaseName href) = []
    · rw [if_pos he]
      simp [hb]
    · rw [if_neg he]
      exact hb
  · rw [hfe]
    unfold normalizeFilenamePure
    by_cases he : extnameNoSlash (hrefBaseName href) = []
    · rw [if_pos he, extname_append_md _ hb]
      intro hcon
      cases hcon
    · rw [if_neg he]
      exact he
  · rw [hfe]
    unfold normalizeFilenamePure
    have hb' : '/' ∉ hrefBaseName href := hrefBaseName_no_slash href
    by_cases he : extnameNoSlash (hrefBaseName href) = []
    · rw [if_pos he]
      intro hm
      rcases List.mem_append.mp hm with hm | hm
      · exact hb' hm
      · exact absurd hm (by decide)
    · rw [if_neg he]
      exact hb'
  · intro x hx
    have := List.all_eq_true.mp hh x hx
    simpa using this

theorem c6_parse_idempotent_witness :
    hrefBaseName "Note".data ≠ [] ∧
    ((parseLinkHref "Note".data).1.drop 1).all (· ≠ '#') = true ∧
    (parseLinkHref ((parseLinkHref "Note".data).1)).1 = (parseLinkHref "Note".data).1 :=
  ⟨by decide, by decide, c6_parse_idempotent "Note".data (by decide) (by decide)⟩

theorem headingSearch_eq_none (ref : Str) (ls : List Str)
    (h : ∀ l ∈ ls, headingMatch l ref = none) : headingSearch ref ls = none := by
  induction ls with
  | nil => rfl
  | cons l ls ih =>
    have hl := h l (List.mem_cons_self l ls)
    simp [headingSearch, hl, ih (fun x hx => h x (List.mem_cons_of_mem _ hx))]

theorem headingSearch_of_first (ref : Str) (ls : List Str) (i level : Nat) (l : Str)
    (hget : ls.get? i = some l) (hmatch : headingMatch l ref = some level)
    (hbefore : ∀ j, j < i → ∀ l', ls.get? j = some l' → headingMatch l' ref = none) :
    headingSearch ref ls
      = some (l :: (ls.drop (i + 1)).takeWhile (fun x => !(isBoundaryLine level x))) := by
  induction ls generalizing i with
  | nil => cases hget
  | cons a as ih =>
    cases i with
    | zero =>
      have ha : a = l := by simpa using hget
      subst ha
      simp [headingSearch, hmatch]
    | succ n =>
      have ha : headingMatch a ref = none := hbefore 0 (Nat.succ_pos n) a rfl
      have hget' : as.get? n = some l := by simpa using hget
      have hbefore' : ∀ j, j < n → ∀ l', as.get? j = some l' →
          headingMatch l' ref = none := by
        intro j hj l' hg
        exact hbefore (j + 1) (Nat.succ_lt_succ hj) l' (by simpa using hg)
      simp only [headingSearch, ha, List.drop_succ_cons]
      exact ih n hget' hbefore'

/-- C3 (amended): for a non-block anchor, `extractBlockContent` finds the first
line matching the heading regex case-insensitively; the result is the section from
that heading line up to (but excluding) the next heading line of equal-or-shallower
depth (or to end of document), joined with newlines **and trimmed of surrounding
whitespace** — the final `.trim()` is the one departure from the claim's verbatim
section.  If no heading matches, the full document is returned unchanged. -/
theorem c3_heading_extraction (content ref : Str) (hne : ref ≠ [])
    (hnb : ref.head? ≠ some '^') :
    ((∀ l ∈ jsSplit '\n' content, headingMatch l ref = none) →
      extractBlockContent content ref = content) ∧
    (∀ i level l, (jsSplit '\n' content).get? i = some l →
      headingMatch l ref = some level →
      (∀ j, j < i →
        ((jsSplit '\n' content).get? j).bind (fun x => headingMatch x ref) = none) →
      extractBlockContent content ref
        = jsTrim (joinLines (l ::
            ((jsSplit '\n' content).drop (i + 1)).takeWhile
              (fun x => !(isBoundaryLine level x))))) := by
  constructor
  · intro hall
    simp only [extractBlockContent, if_neg hne, if_neg hnb]
    rw [headingSearch_eq_none ref _ hall]
  · intro i level l hget hmatch hbefore
    have hbefore' : ∀ j, j < i → ∀ l', (jsSplit '\n' content).get? j = some l' →
        headingMatch l' ref = none := by
      intro j hj l' hg
      have hb := hbefore j hj
      rw [hg] at hb
      simpa using hb
    simp only [extractBlockContent, if_neg hne, if_neg hnb]
    rw [headingSearch_of_first ref _ i level l hget hmatch hbefore']

theorem c3_heading_extraction_witness :
    extractBlockContent "# A\nfoo\n## B\nbar\n# C\nbaz".data "B".data
      = "## B\nbar".data := by
  have h := (c3_heading_extraction "# A\nfoo\n## B\nbar\n# C\nbaz".data "B".data
    (by decide) (by decide)).2 2 2 "## B".data (by decide) (by decide) (by decide)
  exact h.trans (by decide)

theorem mergeIndex_get_not_mem (gi : List (Str × List RemoteEntry)) (v : Str)
    (files : List (Str × FileInfo)) (n : Str) (h : n ∉ files.map Prod.fst) :
    mapGet (mergeIndex gi v files) n = mapGet gi n := by
  induction files generalizing gi with
  | nil => rfl
  | cons p ps ih =>
    rw [List.map_cons, List.mem_cons] at h
    push_neg at h
    have h1 : p.1 ≠ n := fun he => h.1 he.symm
    rw [show mergeIndex gi v (p :: ps) = mergeIndex (giPush gi p.1 ⟨v, p.2⟩) v ps
      from rfl]
    rw [ih _ h.2, giPush_get, if_neg h1]

theorem mergeIndex_head_preserved (gi : List (Str × List RemoteEntry)) (v : Str)
    (files : List (Str × FileInfo)) (n : Str) (e : RemoteEntry) (t : List RemoteEntry)
    (h : mapGet gi n = some (e :: t)) :
    ∃ t', mapGet (mergeIndex gi v files) n = some (e :: t') := by
  induction files generalizing gi t with
  | nil => exact ⟨t, h⟩
  | cons p ps ih =>
    simp only [mergeIndex, List.foldl_cons]
    by_cases hp : p.1 = n
    · have hstep : mapGet (giPush gi p.1 ⟨v, p.2⟩) n = some (e :: (t ++ [⟨v, p.2⟩])) := by
        rw [giPush_get, if_pos hp]
        rw [show mapGet gi p.1 = some (e :: t) from hp ▸ h]
        simp
      exact ih _ _ hstep
    · have hstep : mapGet (giPush gi p.1 ⟨v, p.2⟩) n = some (e :: t) := by
        rw [giPush_get, if_neg hp]
        exact h
      exact ih _ _ hstep

theorem foldl_load_head_preserved (pub : Str → Option VaultIndex) (order : List Str)
    (gi : List (Str × List RemoteEntry)) (n : Str) (e : RemoteEntry)
    (t : List RemoteEntry) (h : mapGet gi n = some (e :: t)) :
    ∃ t', mapGet (order.foldl (loadSingleRemoteIndex pub) gi) n = some (e :: t') := by
  induction order generalizing gi t with
  | nil => exact ⟨t, h⟩
  | cons v vs ih =>
    simp only [List.foldl_cons]
    cases hp : pub v with
    | none => exact ih _ _ (by simpa [loadSingleRemoteIndex, hp] using h)
    | some idx =>
      obtain ⟨t', ht'⟩ := mergeIndex_head_preserved gi v idx.files n e t h
      exact ih _ _ (by simpa [loadSingleRemoteIndex, hp] using ht')

theorem mergeIndex_new (gi : List (Str × List RemoteEntry)) (v : Str)
    (files : List (Str × FileInfo)) (n : Str) (hnone : mapGet gi n = none)
    (hmem : n ∈ files.map Prod.fst) :
    ∃ i t, mapGet (mergeIndex gi v files) n = some (⟨v, i⟩ :: t) := by
  induction files generalizing gi with
  | nil => simp at hmem
  | cons p ps ih =>
    simp only [mergeIndex, List.foldl_cons]
    by_cases hp : p.1 = n
    · have hstart : mapGet (giPush gi p.1 ⟨v, p.2⟩) n = some [⟨v, p.2⟩] := by
        rw [giPush_get, if_pos hp]
        rw [show mapGet gi p.1 = none from hp ▸ hnone]
        simp
      obtain ⟨t', ht'⟩ := mergeIndex_head_preserved _ v ps n ⟨v, p.2⟩ [] hstart
      exact ⟨p.2, t', ht'⟩
    · have hmem' : n ∈ ps.map Prod.fst := by
        rw [List.map_cons, List.mem_cons] at hmem
        rcases hmem with h' | h'
        · exact absurd h'.symm hp
        · exact h'
      have hnone' : mapGet (giPush gi p.1 ⟨v, p.2⟩) n = none := by
        rw [giPush_get, if_neg hp]
        exact hnone
      exact ih _ hnone' hmem'

theorem load_first_publisher (pub : Str → Option VaultIndex) (n v : Str) :
    ∀ (vs : List Str) (gi : List (Str × List RemoteEntry)),
      mapGet gi n = none → firstPublisher pub n vs = some v →
      ∃ i t, mapGet (vs.foldl (loadSingleRemoteIndex pub) gi) n = some (⟨v, i⟩ :: t) := by
  intro vs
  induction vs with
  | nil =>
    intro gi hnone hf
    simp [firstPublisher] at hf
  | cons u us ih =>
    intro gi hnone hf
    simp only [List.foldl_cons]
    by_cases hu : publishesB pub u n = true
    · have hv : v = u := by
        unfold firstPublisher at hf
        rw [if_pos hu] at hf
        exact (Option.some.inj hf).symm
      subst hv
      cases hp : pub v with
      | none => rw [publishesB, hp] at hu; cases hu
      | some idx =>
        have hmem : n ∈ idx.files.map Prod.fst := by
          rw [publishesB, hp] at hu
          exact of_decide_eq_true hu
        obtain ⟨i, t, ht⟩ := mergeIndex_new gi v idx.files n hnone hmem
        obtain ⟨t', ht'⟩ := foldl_load_head_preserved pub us _ n ⟨v, i⟩ t ht
        rw [show loadSingleRemoteIndex pub gi v = mergeIndex gi v idx.files
          from by simp [loadSingleRemoteIndex, hp]]
        exact ⟨i, t', ht'⟩
    · have hf' : firstPublisher pub n us = some v := by
        unfold firstPublisher at hf
        rw [if_neg hu] at hf
        exact hf
      have hnone' : mapGet (loadSingleRemoteIndex pub gi u) n = none := by
        cases hp : pub u with
        | none => simpa [loadSingleRemoteIndex, hp] using hnone
        | some idx =>
          have hnm : n ∉ idx.files.map Prod.fst := by
            intro hm
            exact hu (by rw [publishesB, hp]; exact decide_eq_true hm)
          simpa [loadSingleRemoteIndex, hp, mergeIndex_get_not_mem _ _ _ _ hnm]
            using hnone
      exact ih _ hnone' hf'

/-- C2 (amended): merges run in the completion order of the parallel per-neighbor
loads (the source is racy; spec §5 concedes completion-order behavior).  When the
loads complete in neighbor-list order, the first neighbor in the user's list that
publishes a normalized name supplies the head of that name's `globalIndex` bucket,
i.e. the `matches[0]` returned by resolution — reproducibly, since the model is a
pure function of its inputs. -/
theorem c2_first_neighbor_wins (st : PluginState) (pub : Str → Option VaultIndex)
    (n v : Str) (hv : firstPublisher pub n st.neighborVaults = some v) :
    ∃ i t, mapGet (loadRemoteIndices st pub st.neighborVaults).globalIndex n
        = some (⟨v, i⟩ :: t) ∧
      ∀ href, (parseLinkHref href).1 = n →
        (lookupInGlobalIndex (loadRemoteIndices st pub st.neighborVaults) href).1
          = some (⟨v, i⟩ :: t) := by
  obtain ⟨i, t, ht⟩ := load_first_publisher pub n v st.neighborVaults [] rfl hv
  refine ⟨i, t, ?_, ?_⟩
  · rw [loadRemoteIndices_globalIndex]
    exact ht
  · intro href hhref
    rw [lookup_fst_of_empty_caches _ _
      (loadRemoteIndices_lookupCache st pub st.neighborVaults)
      (loadRemoteIndices_normalizationCache st pub st.neighborVaults),
      hhref, loadRemoteIndices_globalIndex]
    exact ht

theorem c2_first_neighbor_wins_witness :
    firstPublisher c2Pub "Note.md".data c2State.neighborVaults = some "A".data ∧
    ∃ i t,
      mapGet (loadRemoteIndices c2State c2Pub c2State.neighborVaults).globalIndex
          "Note.md".data
        = some (⟨"A".data, i⟩ :: t) ∧
      ∀ href, (parseLinkHref href).1 = "Note.md".data →
        (lookupInGlobalIndex (loadRemoteIndices c2State c2Pub c2State.neighborVaults)
            href).1
          = some (⟨"A".data, i⟩ :: t) :=
  ⟨by decide, c2_first_neighbor_wins c2State c2Pub "Note.md".data "A".data (by decide)⟩

theorem parseSt_globalIndex (st : PluginState) (h : Str) :
    (parseLinkHrefSt st h).2.globalIndex = st.globalIndex := by
  unfold parseLinkHrefSt normalizeFilenameSt
  cases hmc : mapGet st.normalizationCache (hrefBaseName h) <;> rfl

theorem parseSt_lookupCache (st : PluginState) (h : Str) :
    (parseLinkHrefSt st h).2.lookupCache = st.lookupCache := by
  unfold parseLinkHrefSt normalizeFilenameSt
  cases hmc : mapGet st.normalizationCache (hrefBaseName h) <;> rfl

theorem lookup_result_wf (st : PluginState) (h : Str) (hg : giWF st.globalIndex)
    (hc : lcWF st.lookupCache) (l : List RemoteEntry)
    (hl : (lookupInGlobalIndex st h).1 = some l) : l ≠ [] := by
  cases hcache : mapGet st.lookupCache h with
  | some v =>
    have hv : (lookupInGlobalIndex st h).1 = v := by
      simp [lookupInGlobalIndex, hcache]
    rw [hv] at hl
    exact hc h l (hl ▸ hcache)
  | none =>
    have hv : (lookupInGlobalIndex st h).1
        = mapGet (parseLinkHrefSt st h).2.globalIndex (parseLinkHrefSt st h).1.1 := by
      simp [lookupInGlobalIndex, hcache]
    rw [hv, parseSt_globalIndex] at hl
    exact hg _ _ hl

theorem lookup_state_globalIndex (st : PluginState) (h : Str) :
    (lookupInGlobalIndex st h).2.globalIndex = st.globalIndex := by
  cases hcache : mapGet st.lookupCache h with
  | some v => simp [lookupInGlobalIndex, hcache]
  | none => simp [lookupInGlobalIndex, hcache, parseSt_globalIndex]

theorem lookup_state_lcWF (st : PluginState) (h : Str) (hg : giWF st.globalIndex)
    (hc : lcWF st.lookupCache) : lcWF (lookupInGlobalIndex st h).2.lookupCache := by
  cases hcache : mapGet st.lookupCache h with
  | some v =>
    have hs : (lookupInGlobalIndex st h).2.lookupCache = st.lookupCache := by
      simp [lookupInGlobalIndex, hcache]
    rw [hs]
    exact hc
  | none =>
    have hs : (lookupInGlobalIndex st h).2.lookupCache
        = mapSet st.lookupCache h
            (mapGet (parseLinkHrefSt st h).2.globalIndex (parseLinkHrefSt st h).1.1) := by
      simp [lookupInGlobalIndex, hcache, parseSt_lookupCache]
    rw [hs]
    intro h' l hl
    rw [mapGet_mapSet] at hl
    by_cases hh : h = h'
    · rw [if_pos hh] at hl
      have := Option.some.inj hl
      rw [parseSt_globalIndex] at this
      exact hg _ _ this
    · rw [if_neg hh] at hl
      exact hc _ _ hl

theorem irm_state_globalIndex (st : PluginState) (q : Str) :
    ((isRemoteMatch st q).2).globalIndex = st.globalIndex := by
  unfold isRemoteMatch
  by_cases h1 : st.isLoadingIndices = true
  · simp [h1]
  · by_cases h2 : q ∈ st.negativeCache
    · simp [h1, h2]
    · simp only [if_neg h1, if_neg h2]
      have hgi := lookup_state_globalIndex st q
      cases hE : lookupInGlobalIndex st q with
      | mk found st₁ =>
        rw [hE] at hgi
        cases found with
        | none => simpa using hgi
        | some l =>
          by_cases hl : l.isEmpty = true
          · simpa [hl] using hgi
          · simpa [hl] using hgi

theorem irm_state_lcWF (st : PluginState) (q : Str) (hg : giWF st.globalIndex)
    (hc : lcWF st.lookupCache) : lcWF ((isRemoteMatch st q).2).lookupCache := by
  unfold isRemoteMatch
  by_cases h1 : st.isLoadingIndices = true
  · simpa [h1] using hc
  · by_cases h2 : q ∈ st.negativeCache
    · simpa [h1, h2] using hc
    · simp only [if_neg h1, if_neg h2]
      have hlc := lookup_state_lcWF st q hg hc
      cases hE : lookupInGlobalIndex st q with
      | mk found st₁ =>
        rw [hE] at hlc
        cases found with
        | none => simpa using hlc
        | some l =>
          by_cases hl : l.isEmpty = true
          · simpa [hl] using hlc
          · simpa [hl] using hlc

theorem irm_step_wf (st : PluginState) (q : Str) (hg : giWF st.globalIndex)
    (hc : lcWF st.lookupCache) :
    giWF ((isRemoteMatch st q).2).globalIndex ∧
    lcWF ((isRemoteMatch st q).2).lookupCache := by
  refine ⟨?_, irm_state_lcWF st q hg hc⟩
  rw [irm_state_globalIndex]
  exact hg

theorem runQueries_wf (qs : List Str) (st : PluginState) (hg : giWF st.globalIndex)
    (hc : lcWF st.lookupCache) :
    giWF (runQueries st qs).globalIndex ∧ lcWF (runQueries st qs).lookupCache := by
  induction qs generalizing st with
  | nil => exact ⟨hg, hc⟩
  | cons q qs ih =>
    simp only [runQueries, List.foldl_cons]
    obtain ⟨hg', hc'⟩ := irm_step_wf st q hg hc
    exact ih _ hg' hc'

theorem giPush_wf (gi : List (Str × List RemoteEntry)) (f : Str) (e : RemoteEntry)
    (h : giWF gi) : giWF (giPush gi f e) := by
  intro n l hl
  rw [giPush_get] at hl
  by_cases hf : f = n
  · rw [if_pos hf] at hl
    have hv := Option.some.inj hl
    rw [← hv]
    simp
  · rw [if_neg hf] at hl
    exact h n l hl

theorem mergeIndex_wf (gi : List (Str × List RemoteEntry)) (v : Str)
    (files : List (Str × FileInfo)) (h : giWF gi) : giWF (mergeIndex gi v files) := by
  induction files generalizing gi with
  | nil => exact h
  | cons p ps ih =>
    rw [show mergeIndex gi v (p :: ps) = mergeIndex (giPush gi p.1 ⟨v, p.2⟩) v ps
      from rfl]
    exact ih _ (giPush_wf _ _ _ h)

theorem loadFold_wf (pub : Str → Option VaultIndex) (order : List Str)
    (gi : List (Str × List RemoteEntry)) (h : giWF gi) :
    giWF (order.foldl (loadSingleRemoteIndex pub) gi) := by
  induction order generalizing gi with
  | nil => exact h
  | cons v vs ih =>
    simp only [List.foldl_cons]
    apply ih
    cases hp : pub v with
    | none => simpa [loadSingleRemoteIndex, hp] using h
    | some idx =>
      have hm := mergeIndex_wf gi v idx.files h
      simpa [loadSingleRemoteIndex, hp] using hm

/-- C10: after every completed reload — and stably across any sequence of
`isRemoteMatch` queries issued afterwards — every key present in `globalIndex`
maps to a non-empty bucket (a bucket is created only together with its first pushed
entry), so a positive `lookupInGlobalIndex` answer always carries at least one
match, and `matches[0]` exists whenever `isRemoteMatch` answers `true`. -/
theorem c10_nonempty_buckets (st : PluginState) (pub : Str → Option VaultIndex)
    (order : List Str) (qs : List Str) (h : Str) :
    (∀ n l, mapGet (runQueries (loadRemoteIndices st pub order) qs).globalIndex n
      = some l → l ≠ []) ∧
    (∀ l, (lookupInGlobalIndex (runQueries (loadRemoteIndices st pub order) qs) h).1
      = some l → l ≠ []) ∧
    ((isRemoteMatch (runQueries (loadRemoteIndices st pub order) qs) h).1 = true →
      ∃ e es,
        (lookupInGlobalIndex (runQueries (loadRemoteIndices st pub order) qs) h).1
          = some (e :: es)) := by
  have hg0 : giWF (loadRemoteIndices st pub order).globalIndex := by
    rw [loadRemoteIndices_globalIndex]
    exact loadFold_wf pub order [] (fun n l hl => by simp [mapGet] at hl)
  have hc0 : lcWF (loadRemoteIndices st pub order).lookupCache := by
    rw [loadRemoteIndices_lookupCache]
    exact fun h' l hl => by simp [mapGet] at hl
  obtain ⟨hg, hc⟩ := runQueries_wf qs _ hg0 hc0
  refine ⟨hg, fun l hl => lookup_result_wf _ h hg hc l hl, ?_⟩
  intro htrue
  by_cases h1 : (runQueries (loadRemoteIndices st pub order) qs).isLoadingIndices = true
  · rw [isRemoteMatch, if_pos h1] at htrue
    cases htrue
  · by_cases h2 : h ∈ (runQueries (loadRemoteIndices st pub order) qs).negativeCache
    · rw [isRemoteMatch, if_neg h1, if_pos h2] at htrue
      cases htrue
    · cases hE : lookupInGlobalIndex (runQueries (loadRemoteIndices st pub order) qs) h with
      | mk found st₁ =>
        cases found with
        | none => simp [isRemoteMatch, h1, h2, hE] at htrue
        | some l =>
          cases l with
          | nil => simp [isRemoteMatch, h1, h2, hE] at htrue
          | cons e es =>
            exact ⟨e, es, rfl⟩

theorem c10_nonempty_buckets_witness :
    (isRemoteMatch (runQueries (loadRemoteIndices c1Start c1Pub ["B".data]) [])
      "Note".data).1 = true ∧
    ([⟨"B".data, ⟨"Note.md".data, 1⟩⟩] : List RemoteEntry) ≠ [] ∧
    ∃ e es,
      (lookupInGlobalIndex (runQueries (loadRemoteIndices c1Start c1Pub ["B".data]) [])
        "Note".data).1 = some (e :: es) :=
  ⟨by decide,
   (c10_nonempty_buckets c1Start c1Pub ["B".data] [] "Note".data).2.1
     [⟨"B".data, ⟨"Note.md".data, 1⟩⟩] (by decide),
   (c10_nonempty_buckets c1Start c1Pub ["B".data] [] "Note".data).2.2 (by decide)⟩

theorem scan_fold_eq (fs : ScanFS) (p : Str) (ds : List Dirent) (acc : List Str) :
    ds.foldl
      (fun acc d =>
        if d.isDir then
          let fullPath := pathJoin p d.name
          if isVault fs fullPath then acc ++ [fullPath] else acc
        else acc) acc
      = acc ++ (ds.filter (fun d => d.isDir && isVault fs (pathJoin p d.name))).map
          (fun d => pathJoin p d.name) := by
  induction ds generalizing acc with
  | nil => simp
  | cons d ds ih =>
    simp only [List.foldl_cons]
    by_cases h1 : d.isDir = true
    · by_cases h2 : isVault fs (pathJoin p d.name) = true
      · simp [h1, h2, List.filter_cons, ih]
      · simp [h1, h2, List.filter_cons, ih]
    · simp [h1, List.filter_cons, ih]

/-- C8: when the parent folder exists, a successful `readdirSync` yields exactly the
qualifying sibling paths (directories whose `.obsidian` probe answers `true`; a
probe that throws is caught inside `isVault` and the folder is skipped individually
without aborting the scan — such a path never appears in the result), with no error
diagnostic; when `readdirSync` itself throws, no partial result is returned (the
list is empty) and the failure is reported via the error diagnostic. -/
theorem c8_scan_for_vaults (fs : ScanFS) (p : Str) (hex : fs.parentExists = true) :
    (∀ ds, fs.readdirResult = .ok ds →
      scanForVaults fs p
        = ((ds.filter (fun d => d.isDir && isVault fs (pathJoin p d.name))).map
            (fun d => pathJoin p d.name), []) ∧
      ∀ d ∈ ds,
        fs.vaultCheck (pathJoin (pathJoin p d.name) ".obsidian".data) = .error () →
        pathJoin p d.name ∉ (scanForVaults fs p).1) ∧
    (∀ e, fs.readdirResult = .error e → scanForVaults fs p = ([], [e])) := by
  constructor
  · intro ds hok
    have hscan : scanForVaults fs p
        = ((ds.filter (fun d => d.isDir && isVault fs (pathJoin p d.name))).map
            (fun d => pathJoin p d.name), []) := by
      unfold scanForVaults
      rw [hex, hok]
      simp only [Bool.not_true, Bool.false_eq_true, if_false]
      rw [scan_fold_eq]
      simp
    refine ⟨hscan, ?_⟩
    intro d _ herr hmem
    rw [hscan] at hmem
    obtain ⟨d', hd', heq⟩ := List.mem_map.mp hmem
    have hfil := (List.mem_filter.mp hd').2
    have hv : isVault fs (pathJoin p d'.name) = true :=
      ((Bool.and_eq_true _ _).mp hfil).2
    rw [heq] at hv
    rw [isVault, herr] at hv
    cases hv
  · intro e herr
    unfold scanForVaults
    rw [hex, herr]
    simp

theorem c8_scan_for_vaults_witness :
    c8FS.parentExists = true ∧
    scanForVaults c8FS "parent".data
      = ([pathJoin "parent".data "v1".data, pathJoin "parent".data "v2".data], []) := by
  refine ⟨rfl, ?_⟩
  have h := ((c8_scan_for_vaults c8FS "parent".data rfl).1 _ rfl).1
  exact h.trans (by decide)

theorem gossip_fold_mono (nv : List Str) (rvp : Str) :
    ∀ (ns : List Str) (acc : List Str × Bool),
      ((ns.foldl (gossipStep nv rvp) acc).2 = acc.2 ∧
        (ns.foldl (gossipStep nv rvp) acc).1 = acc.1) ∨
      ((ns.foldl (gossipStep nv rvp) acc).2 = true ∧
        (ns.foldl (gossipStep nv rvp) acc).1.length > acc.1.length) := by
  intro ns
  induction ns with
  | nil => exact fun acc => Or.inl ⟨rfl, rfl⟩
  | cons x xs ih =>
    intro acc
    simp only [List.foldl_cons]
    by_cases ha : x = rvp
    · rw [show gossipStep nv rvp acc x = acc from by simp [gossipStep, ha]]
      exact ih acc
    · by_cases hb : x ∉ nv ∧ x ∉ acc.1
      · rw [show gossipStep nv rvp acc x = (acc.1 ++ [x], true) from by
          simp [gossipStep, ha, hb]]
        rcases ih (acc.1 ++ [x], true) with ⟨h2, h1⟩ | ⟨h2, h1⟩
        · right
          refine ⟨h2, ?_⟩
          rw [h1]
          simp
        · right
          refine ⟨h2, ?_⟩
          have hx : ((acc.1 ++ [x], true) : List Str × Bool).1.length
              = acc.1.length + 1 := by simp
          omega
      · rw [show gossipStep nv rvp acc x = acc from by simp [gossipStep, ha, hb]]
        exact ih acc

/-- C9 (amended): `ensureBidirectionalLink` either writes nothing, or writes back a
configuration whose `discoveredVaults` strictly grew (the file is written only when
an entry was actually added), whose `neighborVaults` is the original value — except
that an absent `neighborVaults`/`discoveredVaults` field is initialized to the empty
list before the update and therefore appears as `[]` in the written file — and whose
every other field (`rest`) is preserved verbatim; when the remote configuration
cannot be located, nothing is written at all. -/
theorem c9_gossip_frame {α : Type} (cur : Str) (lns : List Str) (rvp : Str)
    (remoteData : Option (RemoteData α)) :
    (remoteData = none → ensureBidirectionalLink cur lns rvp remoteData = none) ∧
    (∀ d : RemoteData α, remoteData = some d →
      (ensureBidirectionalLink cur lns rvp remoteData = none ∨
       ∃ dv', ensureBidirectionalLink cur lns rvp remoteData
           = some ⟨some (d.neighborVaults.getD []), some dv', d.rest⟩ ∧
         dv'.length > (d.discoveredVaults.getD []).length)) := by
  constructor
  · intro h
    subst h
    unfold ensureBidirectionalLink
    by_cases hc : cur = [] <;> simp [hc]
  · intro d hd
    subst hd
    by_cases hc : cur = []
    · left
      unfold ensureBidirectionalLink
      simp [hc]
    · have hbody : ensureBidirectionalLink cur lns rvp (some d)
          = (if (lns.foldl (gossipStep (d.neighborVaults.getD []) rvp)
                 (if cur ∉ d.neighborVaults.getD [] ∧ cur ∉ d.discoveredVaults.getD []
                  then (d.discoveredVaults.getD [] ++ [cur], true)
                  else (d.discoveredVaults.getD [], false))).2 = true
             then some ⟨some (d.neighborVaults.getD []),
                        some (lns.foldl (gossipStep (d.neighborVaults.getD []) rvp)
                          (if cur ∉ d.neighborVaults.getD [] ∧
                              cur ∉ d.discoveredVaults.getD []
                           then (d.discoveredVaults.getD [] ++ [cur], true)
                           else (d.discoveredVaults.getD [], false))).1, d.rest⟩
             else none) := by
        simp only [ensureBidirectionalLink, if_neg hc]
      rw [hbody]
      by_cases h1 : cur ∉ d.neighborVaults.getD [] ∧ cur ∉ d.discoveredVaults.getD []
      · rw [if_pos h1]
        have hmono := gossip_fold_mono (d.neighborVaults.getD []) rvp lns
          (d.discoveredVaults.getD [] ++ [cur], true)
        by_cases hfl : (List.foldl (gossipStep (d.neighborVaults.getD []) rvp)
            (d.discoveredVaults.getD [] ++ [cur], true) lns).2 = true
        · rw [if_pos hfl]
          right
          refine ⟨_, rfl, ?_⟩
          have hp1 : ((d.discoveredVaults.getD [] ++ [cur], true) : List Str × Bool).1.length
              = (d.discoveredVaults.getD []).length + 1 := by simp
          rcases hmono with ⟨h2, h3⟩ | ⟨h2, h3⟩
          · rw [h3]
            omega
          · omega
        · rw [if_neg hfl]
          left
          rfl
      · rw [if_neg h1]
        have hmono := gossip_fold_mono (d.neighborVaults.getD []) rvp lns
          (d.discoveredVaults.getD [], false)
        by_cases hfl : (List.foldl (gossipStep (d.neighborVaults.getD []) rvp)
            (d.discoveredVaults.getD [], false) lns).2 = true
        · rw [if_pos hfl]
          right
          refine ⟨_, rfl, ?_⟩
          have hp1 : ((d.discoveredVaults.getD [], false) : List Str × Bool).1.length
              = (d.discoveredVaults.getD []).length := rfl
          rcases hmono with ⟨h2, h3⟩ | ⟨h2, h3⟩
          · exact absurd (h2.symm.trans hfl) (by simp)
          · omega
        · rw [if_neg hfl]
          left
          rfl

theorem c9_gossip_frame_witness :
    (ensureBidirectionalLink "A".data ["C".data] "B".data
        (none : Option (RemoteData Nat)) = none) ∧
    (ensureBidirectionalLink "A".data ["C".data] "B".data
        (some (⟨some [], some [], 7⟩ : RemoteData Nat)) = none ∨
     ∃ dv', ensureBidirectionalLink "A".data ["C".data] "B".data
         (some (⟨some [], some [], 7⟩ : RemoteData Nat))
         = some ⟨some (((⟨some [], some [], 7⟩ : RemoteData Nat)).neighborVaults.getD []),
                 some dv', ((⟨some [], some [], 7⟩ : RemoteData Nat)).rest⟩ ∧
       dv'.length
         > (((⟨some [], some [], 7⟩ : RemoteData Nat)).discoveredVaults.getD []).length) :=
  ⟨(c9_gossip_frame "A".data ["C".data] "B".data (none : Option (RemoteData Nat))).1 rfl,
   (c9_gossip_frame "A".data ["C".data] "B".data
      (some (⟨some [], some [], 7⟩ : RemoteData Nat))).2 ⟨some [], some [], 7⟩ rfl⟩
